import Mathlib

/-!
Verification of the convector pixel-shading core.

Shallow embedding of `src/random.rs` and `src/renderer.rs` of the convector
interactive CPU path tracer, together with proofs about the embedded
definitions.

Machine integers are modelled as `ℕ` (respectively `ℤ` for signed views) with
explicit reduction modulo `2 ^ w`.  IEEE-754 single-precision values are
modelled as rationals together with an explicit round-to-nearest-even
rounding function `roundF32`; each SIMD floating-point intrinsic used by the
source (`cvtdq2ps`, `vfmadd`, multiplication, division) is modelled as the
exact rational operation followed by `roundF32`.  The model has no infinities:
it is faithful for computations that stay below the `f32` overflow threshold,
which all computations considered here do.

External collaborators of the two source files (the SIMD vector type
`Mf32`/`Mi32`/`Mu64` operations from `simd.rs`, `vector3.rs`, and the
scene/intersection engine) are not part of the repository slice under
verification; where a claim depends on them they are modelled from the
specification, as marked in the corresponding doc comments.
-/

namespace Convector

/-! ## The random number generator state (`src/random.rs`)

`Mu64` is a vector of four 64-bit lanes; we keep each lane as a natural
number, reducing modulo `2 ^ 64` exactly where the machine wraps. -/

/-- Four 64-bit lanes, as in `simd::Mu64`. -/
structure Mu64 where
  l0 : ℕ
  l1 : ℕ
  l2 : ℕ
  l3 : ℕ
  deriving DecidableEq, Repr

/-- Seeding multiplier for `x` in `Rng::with_seed` (src/random.rs line 52). -/
def seedMulX : ℕ := 12276630456901467871

/-- Seeding multiplier for `y` in `Rng::with_seed` (src/random.rs line 53). -/
def seedMulY : ℕ := 7661526868048087387

/-- Seeding multiplier for `i` in `Rng::with_seed` (src/random.rs line 54). -/
def seedMulI : ℕ := 2268244495640532043

/-- The prime modulus used to fold the seed (src/random.rs line 62). -/
def seedFoldPrime : ℕ := 9358246936573323101

/-- The four per-lane primes of the initial state (src/random.rs lines 64-67). -/
def seedPrime0 : ℕ := 14491630826648200009
def seedPrime1 : ℕ := 13149596372461506851
def seedPrime2 : ℕ := 6119410235796056053
def seedPrime3 : ℕ := 14990141545859273719

/-- Model of `Rng::with_seed` (src/random.rs lines 43-70): hash the three 32-bit
seeds with distinct multipliers, fold modulo a prime, broadcast and multiply
lane-wise by four distinct primes.  All `u64` arithmetic wraps mod `2^64`. -/
def withSeed (x y i : ℕ) : Mu64 :=
  let a := (x * seedMulX) % 2 ^ 64
  let b := (y * seedMulY) % 2 ^ 64
  let c := (i * seedMulI) % 2 ^ 64
  let seed := (a + b + c) % 2 ^ 64
  let seed := (seed + seed % seedFoldPrime) % 2 ^ 64
  { l0 := (seed * seedPrime0) % 2 ^ 64
    l1 := (seed * seedPrime1) % 2 ^ 64
    l2 := (seed * seedPrime2) % 2 ^ 64
    l3 := (seed * seedPrime3) % 2 ^ 64 }

/-- First state-update multiplier `f1 = 3 * 1073243692214514217`
(src/random.rs line 83). -/
def stateMul0 : ℕ := 3 * 1073243692214514217

/-- Second state-update multiplier `f2 = 5 * 3335100457702756523`
(src/random.rs line 84). -/
def stateMul1 : ℕ := 5 * 3335100457702756523

/-- Third state-update multiplier `f3 = 7 * 8789056573444181`
(src/random.rs line 85). -/
def stateMul2 : ℕ := 7 * 8789056573444181

/-- Fourth state-update multiplier `f4 = 11 * 781436371140792079`
(src/random.rs line 86). -/
def stateMul3 : ℕ := 11 * 781436371140792079

/-- The committed new state of `Rng::next` (src/random.rs line 87):
lane-wise wrapping multiplication by the four update constants. -/
def stepState (s : Mu64) : Mu64 :=
  { l0 := (s.l0 * stateMul0) % 2 ^ 64
    l1 := (s.l1 * stateMul1) % 2 ^ 64
    l2 := (s.l2 * stateMul2) % 2 ^ 64
    l3 := (s.l3 * stateMul3) % 2 ^ 64 }

/-- Model of `Rng::next` (src/random.rs lines 73-90): returns the old state and
commits the lane-wise product with the update constants. -/
def next (s : Mu64) : Mu64 × Mu64 :=
  (s, stepState s)

/-- The state after `n` calls to `Rng::next`. -/
def stateAfter (s : Mu64) : ℕ → Mu64
  | 0 => s
  | n + 1 => stepState (stateAfter s n)

/-- The eight 32-bit integer lanes obtained by reinterpreting the four
64-bit lanes (the `transmute` in src/random.rs lines 101/109/121/132):
even lanes are the low halves, odd lanes the high halves, little-endian. -/
def u32Lane (s : Mu64) (k : Fin 8) : ℕ :=
  let u := match (k : ℕ) / 2 with
    | 0 => s.l0
    | 1 => s.l1
    | 2 => s.l2
    | _ => s.l3
  if (k : ℕ) % 2 = 0 then u % 2 ^ 32 else (u / 2 ^ 32) % 2 ^ 32

/-- A 32-bit pattern viewed as a signed two's-complement integer, as done by
reinterpreting `Mu64` as `Mi32` in `sample_unit` and friends. -/
def toInt32 (u : ℕ) : ℤ :=
  if u % 2 ^ 32 < 2 ^ 31 then (u % 2 ^ 32 : ℤ) else (u % 2 ^ 32 : ℤ) - 2 ^ 32

/-- The signed 32-bit value of lane `k` of the state. -/
def i32Lane (s : Mu64) (k : Fin 8) : ℤ := toInt32 (u32Lane s k)

/-! ## A model of IEEE-754 single precision over `ℚ`

`f32` values are rationals; every SIMD floating-point intrinsic used by the
source is the exact rational operation followed by round-to-nearest-even at
24 bits of precision (`roundF32`).  The model has no infinities or NaNs; it
is faithful below the `f32` overflow threshold, which suffices for every
computation the claims touch. -/

/-- Fuel-based floor of the base-2 logarithm (structural recursion so that
the kernel can evaluate it). -/
def lg2 : ℕ → ℕ → ℕ
  | 0, _ => 0
  | f + 1, n => if 2 ≤ n then lg2 f (n / 2) + 1 else 0

/-- The value `log2floor n` is `⌊log₂ n⌋` for `n ≥ 1` (and `0` for `n = 0`). -/
def log2floor (n : ℕ) : ℕ := lg2 n n

/-- The power `2 ^ e` for an integer `e`, as a rational. -/
def pow2z (e : ℤ) : ℚ :=
  if 0 ≤ e then ((2 ^ e.toNat : ℕ) : ℚ) else 1 / ((2 ^ (-e).toNat : ℕ) : ℚ)

/-- The binary exponent of a nonzero rational: the unique `e` with
`2 ^ e ≤ |q| < 2 ^ (e + 1)`, computed via scaling by `2 ^ 149` (the smallest
positive `f32` is `2 ^ (-149)`). -/
def f32exp (q : ℚ) : ℤ := (log2floor (⌊|q| * 2 ^ 149⌋).toNat : ℤ) - 149

/-- The exponent of the rounding quantum of `q` as an `f32`: normal numbers
round to a multiple of `2 ^ (f32exp q - 23)`, subnormals to a multiple of
`2 ^ (-149)` (the exponent is clamped at `-126`). -/
def f32ulpExp (q : ℚ) : ℤ := max (f32exp q) (-126) - 23

/-- Round to the nearest integer, ties to even. -/
def rneInt (q : ℚ) : ℤ :=
  if q - ⌊q⌋ < 1 / 2 then ⌊q⌋
  else if (1 : ℚ) / 2 < q - ⌊q⌋ then ⌊q⌋ + 1
  else if ⌊q⌋ % 2 = 0 then ⌊q⌋ else ⌊q⌋ + 1

/-- Round a rational to the nearest `f32` value (round-to-nearest-even). -/
def roundF32 (q : ℚ) : ℚ :=
  if q = 0 then 0 else rneInt (q / pow2z (f32ulpExp q)) * pow2z (f32ulpExp q)

/-- Multiplication in `f32`: exact product, then one rounding. -/
def f32mul (a b : ℚ) : ℚ := roundF32 (a * b)

/-- Division in `f32`: exact quotient, then one rounding. -/
def f32div (a b : ℚ) : ℚ := roundF32 (a / b)

/-- Fused multiply-add (`Mf32::mul_add`, a single rounding of `a*b + c`). -/
def f32fma (a b c : ℚ) : ℚ := roundF32 (a * b + c)

/-- Conversion `i32 -> f32` (`Mi32::into_mf32`, the `cvtdq2ps` intrinsic:
round to nearest even). -/
def intoMf32 (v : ℤ) : ℚ := roundF32 (v : ℚ)

/-- Conversion `f32 -> i32` (`Mf32::into_mi32`, the `cvtps2dq` intrinsic:
round to nearest even). -/
def intoMi32 (q : ℚ) : ℤ := rneInt q

/-- The `f32` value of `i32::MIN` (exactly representable). -/
def i32MinF : ℚ := -(2 ^ 31)

/-- The scale constant of `sample_unit` (src/random.rs line 110):
`0.5 / i32::MIN as f32`, computed with one `f32` division. -/
def rangeUnit : ℚ := f32div (1 / 2) i32MinF

/-- The scale constant of `sample_biunit` (src/random.rs line 122). -/
def rangeBiunit : ℚ := f32div 1 i32MinF

/-- The constant `std::f32::consts::PI`: the `f32` nearest `π`, namely
`0x40490FDB = 13176795 * 2 ^ (-22)`. -/
def pi32 : ℚ := 13176795 / 2 ^ 22

/-- The scale constant of `sample_angle` (src/random.rs line 133). -/
def rangeAngle : ℚ := f32div pi32 i32MinF

/-! ## The derived sampling operations of `Rng` -/

/-- One lane of `Rng::sample_unit` (src/random.rs lines 106-114):
`mi32.into_mf32().mul_add(range, half)`. -/
def sampleUnitLane (v : ℤ) : ℚ := f32fma (intoMf32 v) rangeUnit (1 / 2)

/-- One lane of `Rng::sample_biunit` (src/random.rs lines 118-125). -/
def sampleBiunitLane (v : ℤ) : ℚ := f32mul (intoMf32 v) rangeBiunit

/-- One lane of `Rng::sample_angle` (src/random.rs lines 129-136). -/
def sampleAngleLane (v : ℤ) : ℚ := f32mul (intoMf32 v) rangeAngle

/-- Model of `Rng::sample_u32`: the eight 32-bit lanes of `next()`. -/
def sampleU32 (s : Mu64) : (Fin 8 → ℕ) × Mu64 :=
  (fun k => u32Lane s k, stepState s)

/-- Model of `Rng::sample_unit` at the state level: lanes of the old state, new
state committed by `next()`. -/
def sampleUnit (s : Mu64) : (Fin 8 → ℚ) × Mu64 :=
  (fun k => sampleUnitLane (i32Lane s k), stepState s)

/-- Model of `Rng::sample_biunit` at the state level. -/
def sampleBiunit (s : Mu64) : (Fin 8 → ℚ) × Mu64 :=
  (fun k => sampleBiunitLane (i32Lane s k), stepState s)

/-- Model of `Rng::sample_angle` at the state level. -/
def sampleAngle (s : Mu64) : (Fin 8 → ℚ) × Mu64 :=
  (fun k => sampleAngleLane (i32Lane s k), stepState s)

/-- Model of `Rng::sample_hemisphere_vector` (src/random.rs lines 140-159): draws
`phi = sample_angle()`, then `r_sqr = sample_unit()`, and builds
`(sin phi * sqrt r_sqr, cos phi * sqrt r_sqr, sqrt (1 - r_sqr))`.

Modelled from the spec: the square root, sine and cosine of `Mf32`
(`simd.rs`, not part of the repository slice under `src/`) are modelled as
the exact real functions, per the spec's formulas
`r = sqrt(r²)`, `x = sin(phi)·r`, `y = cos(phi)·r`, `z = sqrt(1 - r²)`. -/
noncomputable def sampleHemisphereVector (s : Mu64) :
    (Fin 8 → ℝ × ℝ × ℝ) × Mu64 :=
  let phi := (sampleAngle s).1
  let s1 := (sampleAngle s).2
  let rSqr := (sampleUnit s1).1
  let s2 := (sampleUnit s1).2
  (fun k =>
    (Real.sin ((phi k : ℚ) : ℝ) * Real.sqrt ((rSqr k : ℚ) : ℝ),
     Real.cos ((phi k : ℚ) : ℝ) * Real.sqrt ((rSqr k : ℚ) : ℝ),
     Real.sqrt (1 - ((rSqr k : ℚ) : ℝ))), s2)

/-! ## The renderer (`src/renderer.rs`)

An `Mi32` storage word of the render buffer holds 8 packed RGBA pixels;
we model a word as a function from lane index to the 32-bit pixel pattern,
and the buffer as a total function from word index to word (writes become
`Function.update`, so out-of-range indices are harmless in the model).

The shading of a coordinate batch (`render_pixels`) goes through the
external camera and intersection engine; `render_block_16x4` is therefore
parametrised by a function `shade x y i l` giving the packed 32-bit colour
the source computes for batch `i`, lane `l` of the block at `(x, y)` —
i.e. the composition of `render_pixels` with the colour packing. -/

/-- One `Mi32` storage word: 8 pixel lanes of 32-bit patterns. -/
def Word : Type := Fin 8 → ℕ

/-- The render buffer storage, word-indexed. -/
def Bitmap : Type := ℕ → Word

/-- A shading function: `shade x y i l` is the packed colour of batch `i`,
lane `l` of the 16x4 block whose bottom-left pixel is `(x, y)`. -/
def Shade : Type := ℕ → ℕ → Fin 8 → Fin 8 → ℕ

/-- The shuffle helper `mk_line0` (src/renderer.rs lines 176-177): lanes 0-3 of `left`
followed by lanes 0-3 of `right`. -/
def mkLine0 (left rght : Word) : Word :=
  fun l => if h : (l : ℕ) < 4 then left ⟨l, by omega⟩ else rght ⟨(l : ℕ) - 4, by omega⟩

/-- The shuffle helper `mk_line1` (src/renderer.rs lines 178-179): lanes 4-7 of `left`
followed by lanes 4-7 of `right`. -/
def mkLine1 (left rght : Word) : Word :=
  fun l => if h : (l : ℕ) < 4 then left ⟨(l : ℕ) + 4, by omega⟩ else rght ⟨(l : ℕ), l.isLt⟩

/-- Model of `Renderer::render_block_16x4` (src/renderer.rs lines 158-197): computes
the 8 colour batches and stores them, un-shuffled into raster order, at the
four row offsets `((y + k) * width + x) / 8` and the following word. -/
def renderBlock (shade : Shade) (width : ℕ) (bitmap : Bitmap) (x y : ℕ) : Bitmap :=
  let rgbas : Fin 8 → Word := fun i => fun l => shade x y i l
  let idxLine0 := (y * width + 0 * width + x) / 8
  let idxLine1 := (y * width + 1 * width + x) / 8
  let idxLine2 := (y * width + 2 * width + x) / 8
  let idxLine3 := (y * width + 3 * width + x) / 8
  let b0 := Function.update bitmap (idxLine0 + 0) (mkLine0 (rgbas 0) (rgbas 2))
  let b1 := Function.update b0 (idxLine0 + 1) (mkLine0 (rgbas 4) (rgbas 6))
  let b2 := Function.update b1 (idxLine1 + 0) (mkLine1 (rgbas 0) (rgbas 2))
  let b3 := Function.update b2 (idxLine1 + 1) (mkLine1 (rgbas 4) (rgbas 6))
  let b4 := Function.update b3 (idxLine2 + 0) (mkLine0 (rgbas 1) (rgbas 3))
  let b5 := Function.update b4 (idxLine2 + 1) (mkLine0 (rgbas 5) (rgbas 7))
  let b6 := Function.update b5 (idxLine3 + 0) (mkLine1 (rgbas 1) (rgbas 3))
  Function.update b6 (idxLine3 + 1) (mkLine1 (rgbas 5) (rgbas 7))

/-- Model of `RenderBuffer::into_bitmap` (src/renderer.rs lines 59-73): the buffer
memory reinterpreted as a flat byte array.  Byte `j` of the array is byte
`j % 4` (little-endian) of pixel lane `(j % 32) / 4` of storage word
`j / 32`. -/
def intoBitmap (bitmap : Bitmap) (j : ℕ) : ℕ :=
  bitmap (j / 32) ⟨j % 32 / 4, by omega⟩ / 2 ^ (8 * (j % 4)) % 256

/-- The horizontal pixel offset within a 16x4 block of batch `i`, lane `l`,
per the layout of `get_pixel_coords_16x4` (src/renderer.rs lines 124-153):
`base_x` has lane offsets `(0,1,2,3,0,1,2,3)` and batches `0..7` add
`(0,0,4,4,8,8,12,12)`. -/
def pixelOffX (i l : Fin 8) : ℕ := 4 * ((i : ℕ) / 2) + (l : ℕ) % 4

/-- The vertical pixel offset within a 16x4 block of batch `i`, lane `l`:
`base_y` has lane offsets `(0,0,0,0,1,1,1,1)` and odd batches add 2. -/
def pixelOffY (i l : Fin 8) : ℕ := 2 * ((i : ℕ) % 2) + (l : ℕ) / 4

/-- The batch covering the pixel at offset `(dx, dy)` within a block. -/
def batchOf (dx dy : ℕ) : Fin 8 := ⟨2 * (dx / 4 % 4) + dy / 2 % 2, by omega⟩

/-- The lane covering the pixel at offset `(dx, dy)` within a block. -/
def laneOf (dx dy : ℕ) : Fin 8 := ⟨dy % 2 * 4 + dx % 4, by omega⟩

/-- The single error condition of the renderer interface: a dimension that
is not a multiple of the required tile size.  The source enforces this with
`assert_eq!`; the spec names the condition `InvalidDimensions`. -/
inductive RenderError where
  | invalidDimensions
  deriving DecidableEq, Repr

/-- Model of `Renderer::render_patch` (src/renderer.rs lines 203-213).  The source
asserts `patch_width & 15 == 0` before touching the buffer (a panic leaves
the buffer unmodified, modelled by returning it unchanged along with the
error), then renders blocks at `(x + i * 16, y + j * 4)` for
`i < patch_width / 16`, `j < patch_width / 4`. -/
def renderPatch (shade : Shade) (width : ℕ) (bitmap : Bitmap)
    (patchWidth x y : ℕ) : Bitmap × Option RenderError :=
  if patchWidth % 16 ≠ 0 then (bitmap, some .invalidDimensions)
  else
    let h := patchWidth / 4
    let w := patchWidth / 16
    (((List.range w).foldl (fun bm i =>
        (List.range h).foldl (fun bm j =>
          renderBlock shade width bm (x + i * 16) (y + j * 4)) bm) bitmap),
     none)

/-- Model of `RenderBuffer::new` (src/renderer.rs lines 26-39): asserts both
dimensions are multiples of 16, then allocates `width * height / 8` words,
contents uninitialized.  We model the buffer by its word count only, since
the contents are unspecified until written. -/
def renderBufferNew (width height : ℕ) : Except RenderError ℕ :=
  if width % 16 ≠ 0 then .error .invalidDimensions
  else if height % 16 ≠ 0 then .error .invalidDimensions
  else .ok (width * height / 8)

/-! ## Colour packing (`render_block_16x4`, src/renderer.rs lines 163-172)

`rgb_255 = rgbs[i].clamp_one() * range` clamps each channel to `[0, 1]`
(`clamp_one`, from the external `vector3.rs`, modelled from the spec:
"clamp each channel to `[0, 1]`") and multiplies by the broadcast 255 with
one `f32` rounding; each channel is converted with `into_mi32`, G and B are
shifted left by 8 and 16, and the result is OR-ed with the opaque alpha
`0xff000000`. -/

/-- Modelled from the spec: `clamp_one` clamps a colour channel to
`[0, 1]` (external `vector3.rs`). -/
def clampOne (q : ℚ) : ℚ := min 1 (max 0 q)

/-- The 32-bit two's-complement pattern of an `i32` value. -/
def u32pat (v : ℤ) : ℕ := (v % 2 ^ 32).toNat

/-- The integer byte value of one colour channel: clamp, scale by 255,
convert to integer. -/
def channelByte (q : ℚ) : ℕ := u32pat (intoMi32 (f32mul (clampOne q) 255))

/-- The packed RGBA pixel of one lane (src/renderer.rs lines 165-172):
`(r | g << 8) | (b << 16 | 0xff000000)`. -/
def packRGBA (r g b : ℚ) : ℕ :=
  (channelByte r ||| channelByte g <<< 8 % 2 ^ 32) |||
    (channelByte b <<< 16 % 2 ^ 32 ||| 0xff000000)

/-! ## The shading function (`get_irradiance`, src/renderer.rs lines 217-253)

The distance, reciprocal square root and surface dot product go through the
external intersection engine and the approximate `rsqrt` intrinsic, so the
already computed per-lane values `cos_alpha` and `falloff` are taken as
inputs; the claim under verification concerns only the occlusion-mask
combination `cos_alpha * (falloff & mask)` (line 252).

Modelled from the spec: `Scene::intersect_any` (external `scene.rs`) returns
a per-lane mask whose bit pattern is all-ones or all-zeros; the bitwise AND
of an `f32` with an all-ones pattern leaves the bit pattern (hence the
value) untouched, and with the all-zeros pattern yields the pattern of
`+0.0`, i.e. the value `0`. -/

/-- A per-lane occlusion-query mask pattern: all-ones (`true`) or all-zeros
(`false`).  Modelled from the spec: "a per-lane bit pattern that is
all-ones ... or all-zeros". -/
def maskPattern (b : Bool) : ℕ := if b then 2 ^ 32 - 1 else 0

/-- Modelled from the spec: the value-level effect of AND-ing an `f32` with
a mask pattern that is all-ones or all-zeros. -/
def mf32And (f : ℚ) (m : ℕ) : ℚ := if m = 0 then 0 else f

/-- The final combination of `get_irradiance` (src/renderer.rs line 252):
`cos_alpha * (falloff & mask)`, one `f32` multiplication. -/
def getIrradianceLane (cosAlpha falloff : ℚ) (m : ℕ) : ℚ :=
  f32mul cosAlpha (mf32And falloff m)

/-! ## The operation list for the determinism claim -/

/-- One draw operation of the sampler interface. -/
inductive RngOp where
  | u32
  | unit
  | biunit
  | angle
  | hemisphere
  deriving DecidableEq, Repr

/-- The observable output of one draw. -/
inductive RngOutput where
  | ints : (Fin 8 → ℕ) → RngOutput
  | floats : (Fin 8 → ℚ) → RngOutput
  | vectors : (Fin 8 → ℝ × ℝ × ℝ) → RngOutput

/-- Run one sampling operation from a state. -/
noncomputable def runOp (s : Mu64) : RngOp → RngOutput × Mu64
  | .u32 => (.ints (sampleU32 s).1, (sampleU32 s).2)
  | .unit => (.floats (sampleUnit s).1, (sampleUnit s).2)
  | .biunit => (.floats (sampleBiunit s).1, (sampleBiunit s).2)
  | .angle => (.floats (sampleAngle s).1, (sampleAngle s).2)
  | .hemisphere =>
      (.vectors (sampleHemisphereVector s).1, (sampleHemisphereVector s).2)

/-- Run a list of sampling operations, collecting the outputs. -/
noncomputable def runOps (s : Mu64) : List RngOp → List RngOutput
  | [] => []
  | op :: ops => (runOp s op).1 :: runOps (runOp s op).2 ops

/-- The per-lane state-update map of `Rng::next` on 64-bit lane values:
multiplication by the constant `f` modulo `2 ^ 64`. -/
def laneStep (f : ℕ) (s : Fin (2 ^ 64)) : Fin (2 ^ 64) :=
  ⟨f * s % 2 ^ 64, Nat.mod_lt _ (by norm_num)⟩

/-- The list of bottom-left block coordinates rendered by `render_patch`,
in loop order (src/renderer.rs lines 208-212). -/
def patchBlocks (patchWidth x y : ℕ) : List (ℕ × ℕ) :=
  (List.range (patchWidth / 16)).flatMap fun i =>
    (List.range (patchWidth / 4)).map fun j => (x + i * 16, y + j * 4)

/-- The word indices written by `render_block_16x4` at block `(x, y)`:
the four row offsets `((y + k) * width + x) / 8` and their successors. -/
def writeWords (width x y : ℕ) : List ℕ :=
  [((y + 0) * width + x) / 8, ((y + 0) * width + x) / 8 + 1,
   ((y + 1) * width + x) / 8, ((y + 1) * width + x) / 8 + 1,
   ((y + 2) * width + x) / 8, ((y + 2) * width + x) / 8 + 1,
   ((y + 3) * width + x) / 8, ((y + 3) * width + x) / 8 + 1]

/-- The Euclidean norm of a vector given as a triple of reals. -/
noncomputable def vecNorm (v : ℝ × ℝ × ℝ) : ℝ :=
  Real.sqrt (v.1 ^ 2 + v.2.1 ^ 2 + v.2.2 ^ 2)

/-- The storage word written by `render_block_16x4` at row offset `k`
(`0..3`) and word offset `c` (`0..1`), per src/renderer.rs lines 189-196. -/
def blockWord (shade : Shade) (x y : ℕ) : ℕ → ℕ → Word :=
  fun k c =>
    let rgbas : Fin 8 → Word := fun i => fun l => shade x y i l
    match k, c with
    | 0, 0 => mkLine0 (rgbas 0) (rgbas 2)
    | 0, _ => mkLine0 (rgbas 4) (rgbas 6)
    | 1, 0 => mkLine1 (rgbas 0) (rgbas 2)
    | 1, _ => mkLine1 (rgbas 4) (rgbas 6)
    | 2, 0 => mkLine0 (rgbas 1) (rgbas 3)
    | 2, _ => mkLine0 (rgbas 5) (rgbas 7)
    | 3, 0 => mkLine1 (rgbas 1) (rgbas 3)
    | _, _ => mkLine1 (rgbas 5) (rgbas 7)

/-- Multiplication by an odd constant is a bijection modulo `2 ^ 64`. -/
theorem laneStep_bijective_of_odd {f : ℕ} (hf : f % 2 = 1) :
    Function.Bijective (laneStep f) := by
  have h2 : Nat.Coprime 2 f :=
    (Nat.prime_two.coprime_iff_not_dvd).mpr
      (by rw [Nat.dvd_iff_mod_eq_zero]; omega)
  have hcop : Nat.gcd (2 ^ 64) f = 1 := Nat.Coprime.pow_left 64 h2
  have hinj : Function.Injective (laneStep f) := by
    intro s t hst
    have hmod : f * (s : ℕ) ≡ f * (t : ℕ) [MOD 2 ^ 64] := by
      have := congrArg Fin.val hst
      simpa [laneStep, Nat.ModEq] using this
    have hcancel := Nat.ModEq.cancel_left_of_coprime hcop hmod
    apply Fin.ext
    have hs := s.isLt
    have ht := t.isLt
    have hcancel2 : (s : ℕ) % 2 ^ 64 = (t : ℕ) % 2 ^ 64 := hcancel
    rwa [Nat.mod_eq_of_lt hs, Nat.mod_eq_of_lt ht] at hcancel2
  exact Finite.injective_iff_bijective.mp hinj

/-- C5: `next()` returns the pre-call state and commits the lane-wise
product of the old state with the four update constants modulo `2 ^ 64`;
the four constants are pairwise distinct and odd, and for each of them the
per-lane update map is a bijection of the 64-bit integers (in particular
distinct states map to distinct successor states). -/
theorem next_returns_old_state_and_updates_bijectively :
    (∀ s : Mu64, (next s).1 = s ∧
      (next s).2 = ⟨s.l0 * stateMul0 % 2 ^ 64, s.l1 * stateMul1 % 2 ^ 64,
        s.l2 * stateMul2 % 2 ^ 64, s.l3 * stateMul3 % 2 ^ 64⟩) ∧
    ([stateMul0, stateMul1, stateMul2, stateMul3].Nodup ∧
      stateMul0 % 2 = 1 ∧ stateMul1 % 2 = 1 ∧
      stateMul2 % 2 = 1 ∧ stateMul3 % 2 = 1) ∧
    (Function.Bijective (laneStep stateMul0) ∧
      Function.Bijective (laneStep stateMul1) ∧
      Function.Bijective (laneStep stateMul2) ∧
      Function.Bijective (laneStep stateMul3)) := by
  refine ⟨fun s => ⟨rfl, rfl⟩, by decide, ?_, ?_, ?_, ?_⟩ <;>
    exact laneStep_bijective_of_odd (by decide)

/-- C4: equal seed triples yield identical output sequences for any list of
draws of any of the sampling operations. -/
theorem withSeed_deterministic (x y i x2 y2 i2 : ℕ)
    (hx : x = x2) (hy : y = y2) (hi : i = i2) (ops : List RngOp) :
    runOps (withSeed x y i) ops = runOps (withSeed x2 y2 i2) ops := by
  subst hx; subst hy; subst hi; rfl

/-- Witness for C4 at the seed `(2, 5, 7)` used by the source's tests. -/
theorem withSeed_deterministic_witness :
    (2 = 2 ∧ 5 = 5 ∧ 7 = 7) ∧
      runOps (withSeed 2 5 7) [RngOp.u32, RngOp.unit, RngOp.hemisphere] =
        runOps (withSeed 2 5 7) [RngOp.u32, RngOp.unit, RngOp.hemisphere] :=
  ⟨⟨rfl, rfl, rfl⟩,
   withSeed_deterministic 2 5 7 2 5 7 rfl rfl rfl
     [RngOp.u32, RngOp.unit, RngOp.hemisphere]⟩

/-- C7: `RenderBuffer::new` fails with `InvalidDimensions` exactly when a
dimension is not a multiple of 16, and otherwise allocates
`width * height / 8` storage words. -/
theorem renderBufferNew_dimensions (width height : ℕ) :
    (renderBufferNew width height = .error .invalidDimensions ↔
      ¬(16 ∣ width ∧ 16 ∣ height)) ∧
    (16 ∣ width → 16 ∣ height →
      renderBufferNew width height = .ok (width * height / 8)) := by
  constructor
  · rw [Nat.dvd_iff_mod_eq_zero, Nat.dvd_iff_mod_eq_zero]
    unfold renderBufferNew
    split_ifs with h1 h2 <;> simp_all
  · intro hw hh
    unfold renderBufferNew
    rw [if_neg, if_neg]
    · simpa [Nat.dvd_iff_mod_eq_zero] using hh
    · simpa [Nat.dvd_iff_mod_eq_zero] using hw

/-- Witness for C7 on a valid 32x16 buffer. -/
theorem renderBufferNew_dimensions_witness :
    (16 ∣ 32 ∧ 16 ∣ 16) ∧ renderBufferNew 32 16 = .ok (32 * 16 / 8) :=
  ⟨⟨by decide, by decide⟩,
   (renderBufferNew_dimensions 32 16).2 (by decide) (by decide)⟩

/-- Folding over a flattened list of lists is the nested fold. -/
theorem foldl_flatMap {α β γ : Type} (f : γ → β → γ) (g : α → List β) :
    ∀ (l : List α) (init : γ),
      (l.flatMap g).foldl f init =
        l.foldl (fun acc a => (g a).foldl f acc) init := by
  intro l
  induction l with
  | nil => intro init; rfl
  | cons a l ih => intro init; simp only [List.flatMap_cons, List.foldl_append,
      List.foldl_cons, ih]

/-- C6: `render_patch` fails with `InvalidDimensions` exactly when the patch
width is not a multiple of 16, leaves the buffer untouched on failure, and
otherwise renders exactly the blocks `(x + 16*i, y + 4*j)` for
`i < patch_width/16`, `j < patch_width/4`, each exactly once. -/
theorem renderPatch_tiles (shade : Shade) (width : ℕ) (bm : Bitmap)
    (pw x y : ℕ) :
    ((renderPatch shade width bm pw x y).2 = some .invalidDimensions ↔
      ¬16 ∣ pw) ∧
    (¬16 ∣ pw → (renderPatch shade width bm pw x y).1 = bm) ∧
    (16 ∣ pw → (renderPatch shade width bm pw x y).1 =
      (patchBlocks pw x y).foldl
        (fun b p => renderBlock shade width b p.1 p.2) bm) ∧
    (patchBlocks pw x y).Nodup ∧
    (∀ p, p ∈ patchBlocks pw x y ↔
      ∃ i < pw / 16, ∃ j < pw / 4, p = (x + 16 * i, y + 4 * j)) := by
  refine ⟨?_, ?_, ?_, ?_, ?_⟩
  · rw [Nat.dvd_iff_mod_eq_zero]
    unfold renderPatch
    split_ifs with h <;> simp_all
  · rw [Nat.dvd_iff_mod_eq_zero]
    intro h
    unfold renderPatch
    rw [if_pos h]
  · rw [Nat.dvd_iff_mod_eq_zero]
    intro h
    unfold renderPatch
    rw [if_neg (by simpa using h)]
    simp only [patchBlocks, foldl_flatMap, List.foldl_map]
  · rw [patchBlocks, List.nodup_flatMap]
    constructor
    · intro i _
      refine List.Nodup.map ?_ (List.nodup_range _)
      intro j1 j2 hj
      have := (Prod.mk.injEq _ _ _ _).mp hj
      omega
    · refine List.Pairwise.imp ?_ (List.pairwise_lt_range _)
      intro i1 i2 hlt
      intro p hp1 hp2
      simp only [Function.comp, List.mem_map, List.mem_range] at hp1 hp2
      obtain ⟨j1, _, rfl⟩ := hp1
      obtain ⟨j2, _, h2⟩ := hp2
      have := (Prod.mk.injEq _ _ _ _).mp h2
      omega
  · intro p
    simp only [patchBlocks, List.mem_flatMap, List.mem_map, List.mem_range]
    constructor
    · rintro ⟨i, hi, j, hj, rfl⟩
      exact ⟨i, hi, j, hj, by rw [Nat.mul_comm 16 i, Nat.mul_comm 4 j]⟩
    · rintro ⟨i, hi, j, hj, rfl⟩
      exact ⟨i, hi, j, hj, by rw [Nat.mul_comm i 16, Nat.mul_comm j 4]⟩

/-! ### Properties of the `f32` model -/

theorem pow2z_eq_zpow (e : ℤ) : pow2z e = (2 : ℚ) ^ e := by
  unfold pow2z
  split_ifs with h
  · push_cast
    rw [← zpow_natCast (2 : ℚ), Int.toNat_of_nonneg h]
  · have he : (((-e).toNat : ℕ) : ℤ) = -e := Int.toNat_of_nonneg (by omega)
    push_cast
    rw [one_div, ← zpow_natCast (2 : ℚ), he, ← zpow_neg, neg_neg]

theorem pow2z_pos (e : ℤ) : 0 < pow2z e := by
  rw [pow2z_eq_zpow]; positivity

theorem lg2_spec : ∀ f n : ℕ, 1 ≤ n → n ≤ 2 ^ f →
    2 ^ lg2 f n ≤ n ∧ n < 2 ^ (lg2 f n + 1) := by
  intro f
  induction f with
  | zero =>
    intro n h1 h2
    interval_cases n
    simp [lg2]
  | succ f ih =>
    intro n h1 h2
    simp only [lg2]
    split_ifs with h
    · have h2d : n / 2 ≤ 2 ^ f := by
        have hp : n ≤ 2 ^ f * 2 := by rw [← pow_succ]; exact h2
        omega
      obtain ⟨ha, hb⟩ := ih (n / 2) (by omega) h2d
      constructor
      · have : 2 ^ (lg2 f (n / 2) + 1) = 2 * 2 ^ lg2 f (n / 2) := by ring
        omega
      · have : 2 ^ (lg2 f (n / 2) + 1 + 1) = 2 * 2 ^ (lg2 f (n / 2) + 1) := by
          ring
        omega
    · have hn : n = 1 := by omega
      subst hn
      norm_num

theorem log2floor_spec {n : ℕ} (h : 1 ≤ n) :
    2 ^ log2floor n ≤ n ∧ n < 2 ^ (log2floor n + 1) :=
  lg2_spec n n h (Nat.lt_two_pow n).le

theorem f32exp_spec {q : ℚ} (hq : pow2z (-149) ≤ |q|) :
    pow2z (f32exp q) ≤ |q| ∧ |q| < pow2z (f32exp q + 1) := by
  have h149 : ((2 : ℚ) ^ (149 : ℕ)) = (2 : ℚ) ^ ((149 : ℕ) : ℤ) :=
    (zpow_natCast (2 : ℚ) 149).symm
  have ht1 : 1 ≤ |q| * 2 ^ (149 : ℕ) := by
    rw [pow2z_eq_zpow] at hq
    have := mul_le_mul_of_nonneg_right hq
      (by positivity : (0 : ℚ) ≤ 2 ^ (149 : ℕ))
    calc (1 : ℚ) = 2 ^ (-149 : ℤ) * 2 ^ ((149 : ℕ) : ℤ) := by
          rw [← zpow_add₀ (by norm_num : (2 : ℚ) ≠ 0)]
          norm_num
      _ = 2 ^ (-149 : ℤ) * 2 ^ (149 : ℕ) := by rw [h149]
      _ ≤ |q| * 2 ^ (149 : ℕ) := this
  have hfl1 : (1 : ℤ) ≤ ⌊|q| * 2 ^ (149 : ℕ)⌋ := Int.le_floor.mpr (by
    push_cast
    exact ht1)
  set m : ℕ := (⌊|q| * 2 ^ (149 : ℕ)⌋).toNat with hm
  have hm1 : 1 ≤ m := by omega
  have hmcast : ((m : ℤ) : ℚ) = (⌊|q| * 2 ^ (149 : ℕ)⌋ : ℚ) := by
    rw [hm, Int.toNat_of_nonneg (by omega)]
  obtain ⟨hL1, hL2⟩ := log2floor_spec hm1
  have hmle : ((m : ℚ)) ≤ |q| * 2 ^ (149 : ℕ) := by
    rw [show ((m : ℚ)) = ((m : ℤ) : ℚ) by push_cast; ring, hmcast]
    exact Int.floor_le _
  have hmgt : |q| * 2 ^ (149 : ℕ) < (m : ℚ) + 1 := by
    rw [show ((m : ℚ)) = ((m : ℤ) : ℚ) by push_cast; ring, hmcast]
    exact Int.lt_floor_add_one _
  have hexp : f32exp q = (log2floor m : ℤ) - 149 := by
    rw [f32exp]
  constructor
  · rw [hexp, pow2z_eq_zpow]
    rw [show ((log2floor m : ℤ) - 149) = (log2floor m : ℤ) + (-149) by ring,
      zpow_add₀ (by norm_num : (2 : ℚ) ≠ 0)]
    have hstep : (2 : ℚ) ^ (log2floor m : ℤ) ≤ |q| * 2 ^ (149 : ℕ) := by
      calc (2 : ℚ) ^ (log2floor m : ℤ) = ((2 ^ log2floor m : ℕ) : ℚ) := by
            push_cast
            rw [zpow_natCast]
        _ ≤ (m : ℚ) := by exact_mod_cast hL1
        _ ≤ |q| * 2 ^ (149 : ℕ) := hmle
    calc (2 : ℚ) ^ (log2floor m : ℤ) * 2 ^ (-149 : ℤ) ≤
          (|q| * 2 ^ (149 : ℕ)) * 2 ^ (-149 : ℤ) := by
          exact mul_le_mul_of_nonneg_right hstep (by positivity)
      _ = |q| * ((2 : ℚ) ^ ((149 : ℕ) : ℤ) * 2 ^ (-149 : ℤ)) := by
          rw [h149]; ring
      _ = |q| := by
          rw [← zpow_add₀ (by norm_num : (2 : ℚ) ≠ 0)]
          norm_num
  · rw [hexp, pow2z_eq_zpow]
    rw [show ((log2floor m : ℤ) - 149 + 1) = ((log2floor m + 1 : ℕ) : ℤ) + (-149) by
        push_cast; ring,
      zpow_add₀ (by norm_num : (2 : ℚ) ≠ 0)]
    have hstep : |q| * 2 ^ (149 : ℕ) < (2 : ℚ) ^ ((log2floor m + 1 : ℕ) : ℤ) := by
      calc |q| * 2 ^ (149 : ℕ) < (m : ℚ) + 1 := hmgt
        _ ≤ ((2 ^ (log2floor m + 1) : ℕ) : ℚ) := by exact_mod_cast hL2
        _ = (2 : ℚ) ^ ((log2floor m + 1 : ℕ) : ℤ) := by
            rw [zpow_natCast]
            push_cast
            ring
    calc |q| = (|q| * 2 ^ (149 : ℕ)) * 2 ^ (-(149 : ℕ) : ℤ) := by
          rw [h149, mul_assoc, ← zpow_add₀ (by norm_num : (2 : ℚ) ≠ 0)]
          norm_num
      _ < (2 : ℚ) ^ ((log2floor m + 1 : ℕ) : ℤ) * 2 ^ (-(149 : ℕ) : ℤ) := by
          apply mul_lt_mul_of_pos_right hstep (by positivity)
      _ = (2 : ℚ) ^ ((log2floor m + 1 : ℕ) : ℤ) * 2 ^ (-149 : ℤ) := by norm_num

theorem f32exp_eq_of {q : ℚ} {a : ℤ} (h1 : pow2z a ≤ |q|)
    (h2 : |q| < pow2z (a + 1)) (ha : -149 ≤ a) : f32exp q = a := by
  have hq : pow2z (-149) ≤ |q| := by
    refine le_trans ?_ h1
    rw [pow2z_eq_zpow, pow2z_eq_zpow]
    exact zpow_le_zpow_right₀ (by norm_num) ha
  obtain ⟨hs1, hs2⟩ := f32exp_spec hq
  rw [pow2z_eq_zpow] at h1 h2 hs1 hs2
  have hlt1 := (zpow_lt_zpow_iff_right₀ (by norm_num : (1 : ℚ) < 2)).mp
    (lt_of_le_of_lt hs1 h2)
  have hlt2 := (zpow_lt_zpow_iff_right₀ (by norm_num : (1 : ℚ) < 2)).mp
    (lt_of_le_of_lt h1 hs2)
  omega

theorem f32exp_pow2 {a : ℤ} (ha : -149 ≤ a) : f32exp (pow2z a) = a := by
  have habs : |pow2z a| = pow2z a := abs_of_pos (pow2z_pos a)
  refine f32exp_eq_of (by rw [habs]) ?_ ha
  rw [habs, pow2z_eq_zpow, pow2z_eq_zpow]
  exact (zpow_lt_zpow_iff_right₀ (by norm_num : (1 : ℚ) < 2)).mpr (by omega)

theorem f32exp_neg (q : ℚ) : f32exp (-q) = f32exp q := by
  simp [f32exp, abs_neg]

theorem f32ulpExp_neg (q : ℚ) : f32ulpExp (-q) = f32ulpExp q := by
  rw [f32ulpExp, f32ulpExp, f32exp_neg]

theorem rneInt_intCast (m : ℤ) : rneInt (m : ℚ) = m := by
  unfold rneInt
  rw [Int.floor_intCast]
  norm_num

theorem rneInt_le {q : ℚ} {m : ℤ} (h : q ≤ m) : rneInt q ≤ m := by
  have hf : ⌊q⌋ ≤ m := by
    calc ⌊q⌋ ≤ ⌊(m : ℚ)⌋ := Int.floor_mono h
      _ = m := Int.floor_intCast m
  unfold rneInt
  split_ifs with h1 h2 h3
  · exact hf
  · rcases lt_or_eq_of_le hf with hlt | heq
    · omega
    · exfalso
      rw [heq] at h2
      have hc : ((m : ℚ)) ≤ m := le_refl _
      have : q - (m : ℚ) ≤ 0 := by linarith
      linarith
  · exact hf
  · rcases lt_or_eq_of_le hf with hlt | heq
    · omega
    · exfalso
      rw [heq] at h1
      push_neg at h1
      linarith

theorem le_rneInt {q : ℚ} {m : ℤ} (h : (m : ℚ) ≤ q) : m ≤ rneInt q := by
  have hf : m ≤ ⌊q⌋ := Int.le_floor.mpr h
  unfold rneInt
  split_ifs <;> omega

theorem rneInt_neg (q : ℚ) : rneInt (-q) = -rneInt q := by
  rcases eq_or_ne (Int.fract q) 0 with hint | hfrac
  · have hq : q = (⌊q⌋ : ℚ) := by
      have := Int.self_sub_floor q
      rw [hint] at this
      linarith
    rw [hq, ← Int.cast_neg, rneInt_intCast, rneInt_intCast]
  · have hceil : ⌈q⌉ = ⌊q⌋ + 1 := by
      have hc := Int.ceil_eq_add_one_sub_fract hfrac (α := ℚ)
      have hfr := Int.self_sub_floor q
      have : (⌈q⌉ : ℚ) = ((⌊q⌋ + 1 : ℤ) : ℚ) := by
        push_cast
        rw [hc]
        linarith
      exact_mod_cast this
    have hfl : ⌊-q⌋ = -⌊q⌋ - 1 := by
      rw [Int.floor_neg, hceil]
      ring
    have hself : q - (⌊q⌋ : ℚ) = Int.fract q := Int.self_sub_floor q
    have hneg : -q - (⌊-q⌋ : ℚ) = 1 - Int.fract q := by
      rw [Int.self_sub_floor, Int.fract_neg hfrac]
    have hf0 : 0 ≤ Int.fract q := Int.fract_nonneg q
    have hf1 : Int.fract q < 1 := Int.fract_lt_one q
    unfold rneInt
    rw [hneg, hself, hfl]
    split_ifs <;> first | omega | linarith

theorem roundF32_zero : roundF32 0 = 0 := by
  unfold roundF32
  simp

theorem roundF32_neg (q : ℚ) : roundF32 (-q) = -roundF32 q := by
  rcases eq_or_ne q 0 with rfl | hq
  · rw [neg_zero, roundF32_zero, neg_zero]
  · unfold roundF32
    rw [if_neg (by simpa using hq), if_neg hq, f32ulpExp_neg, neg_div,
      rneInt_neg]
    push_cast
    ring

theorem roundF32_eq_self {q : ℚ}
    (h : ∃ m : ℤ, q = m * pow2z (f32ulpExp q)) : roundF32 q = q := by
  rcases eq_or_ne q 0 with rfl | hq
  · exact roundF32_zero
  · obtain ⟨m, hm⟩ := h
    unfold roundF32
    rw [if_neg hq]
    have hup : pow2z (f32ulpExp q) ≠ 0 := ne_of_gt (pow2z_pos _)
    have hdiv : q / pow2z (f32ulpExp q) = (m : ℚ) := by
      rw [div_eq_iff hup]
      exact hm
    rw [hdiv, rneInt_intCast, ← hm]

theorem pow2z_zero : pow2z 0 = 1 := by
  norm_num [pow2z]

theorem exists_int_mul_pow2z (M : ℕ) {u d : ℤ} (hud : u ≤ d)
    (hdvd : 2 ^ d.toNat ∣ M) : ∃ K : ℤ, (M : ℚ) = K * pow2z u := by
  rcases le_or_lt u 0 with hu | hu
  · refine ⟨(M : ℤ) * 2 ^ (-u).toNat, ?_⟩
    rw [pow2z_eq_zpow]
    push_cast
    rw [← zpow_natCast (2 : ℚ) (-u).toNat, Int.toNat_of_nonneg (by omega),
      mul_assoc, ← zpow_add₀ (by norm_num : (2 : ℚ) ≠ 0)]
    norm_num
  · have hd2 : 2 ^ u.toNat ∣ M := dvd_trans (pow_dvd_pow 2 (by omega)) hdvd
    refine ⟨(M / 2 ^ u.toNat : ℕ), ?_⟩
    have hc : (M / 2 ^ u.toNat) * 2 ^ u.toNat = M := Nat.div_mul_cancel hd2
    rw [pow2z_eq_zpow]
    push_cast
    rw [show (2 : ℚ) ^ u = (2 : ℚ) ^ u.toNat by
        rw [← zpow_natCast (2 : ℚ) u.toNat, Int.toNat_of_nonneg (by omega)]]
    exact_mod_cast hc.symm

theorem roundF32_nonneg {q : ℚ} (hq : 0 ≤ q) : 0 ≤ roundF32 q := by
  rcases eq_or_ne q 0 with rfl | hne
  · rw [roundF32_zero]
  · unfold roundF32
    rw [if_neg hne]
    have h1 : (0 : ℤ) ≤ rneInt (q / pow2z (f32ulpExp q)) := by
      apply le_rneInt
      push_cast
      exact div_nonneg hq (pow2z_pos _).le
    exact mul_nonneg (by exact_mod_cast h1) (pow2z_pos _).le

theorem roundF32_le_nat {q : ℚ} (M : ℕ) (a : ℤ) (hq : 0 ≤ q) (hqM : q ≤ M)
    (hMa : (M : ℚ) < pow2z (a + 1)) (ha : -126 ≤ a)
    (hdvd : 2 ^ (a - 23).toNat ∣ M) : roundF32 q ≤ M := by
  rcases eq_or_ne q 0 with rfl | hne
  · rw [roundF32_zero]
    exact_mod_cast M.cast_nonneg (α := ℚ)
  · have hq0 : 0 < q := lt_of_le_of_ne hq (Ne.symm hne)
    have habs : |q| = q := abs_of_pos hq0
    have hexp_le : f32exp q ≤ a := by
      rcases lt_or_le (|q|) (pow2z (-149)) with hsmall | hbig
      · have hq149 : |q| * 2 ^ (149 : ℕ) < 1 := by
          rw [pow2z_eq_zpow] at hsmall
          have := mul_lt_mul_of_pos_right hsmall
            (by positivity : (0 : ℚ) < 2 ^ (149 : ℕ))
          calc |q| * 2 ^ (149 : ℕ) < 2 ^ (-149 : ℤ) * 2 ^ (149 : ℕ) := this
            _ = 2 ^ (-149 : ℤ) * 2 ^ ((149 : ℕ) : ℤ) := by
                rw [zpow_natCast]
            _ = 1 := by
                rw [← zpow_add₀ (by norm_num : (2 : ℚ) ≠ 0)]
                norm_num
        have hfl : ⌊|q| * 2 ^ (149 : ℕ)⌋ = 0 := by
          rw [Int.floor_eq_zero_iff]
          exact ⟨by positivity, hq149⟩
        rw [f32exp, hfl]
        simp only [Int.toNat_zero, log2floor, lg2]
        omega
      · obtain ⟨hs1, _⟩ := f32exp_spec hbig
        have hlt : pow2z (f32exp q) < pow2z (a + 1) := by
          calc pow2z (f32exp q) ≤ |q| := hs1
            _ = q := habs
            _ ≤ M := hqM
            _ < pow2z (a + 1) := hMa
        rw [pow2z_eq_zpow, pow2z_eq_zpow] at hlt
        have := (zpow_lt_zpow_iff_right₀ (by norm_num : (1 : ℚ) < 2)).mp hlt
        omega
    have hu_le : f32ulpExp q ≤ a - 23 := by
      rw [f32ulpExp]
      have := max_le hexp_le (by omega : (-126 : ℤ) ≤ a)
      omega
    obtain ⟨K, hK⟩ := exists_int_mul_pow2z M hu_le hdvd
    have hup := pow2z_pos (f32ulpExp q)
    have hqK : q / pow2z (f32ulpExp q) ≤ (K : ℚ) := by
      rw [div_le_iff hup, ← hK]
      exact hqM
    have hr := rneInt_le hqK
    unfold roundF32
    rw [if_neg hne]
    calc (rneInt (q / pow2z (f32ulpExp q)) : ℚ) * pow2z (f32ulpExp q) ≤
        (K : ℚ) * pow2z (f32ulpExp q) := by
          exact mul_le_mul_of_nonneg_right (by exact_mod_cast hr) hup.le
      _ = M := hK.symm

theorem roundF32_mem_Icc_one {q : ℚ} (h0 : 0 ≤ q) (h1 : q ≤ 1) :
    0 ≤ roundF32 q ∧ roundF32 q ≤ 1 := by
  refine ⟨roundF32_nonneg h0, ?_⟩
  have := roundF32_le_nat 1 0 h0 (by exact_mod_cast h1)
    (by rw [pow2z_eq_zpow]; norm_num) (by norm_num) (by decide)
  exact_mod_cast this

theorem roundF32_mem_Icc_255 {q : ℚ} (h0 : 0 ≤ q) (h1 : q ≤ 255) :
    0 ≤ roundF32 q ∧ roundF32 q ≤ 255 := by
  refine ⟨roundF32_nonneg h0, ?_⟩
  have := roundF32_le_nat 255 7 h0 (by exact_mod_cast h1)
    (by rw [pow2z_eq_zpow]; norm_num) (by norm_num) (by decide)
  exact_mod_cast this

theorem abs_roundF32_le_two31 {q : ℚ} (h : |q| ≤ 2 ^ 31) :
    |roundF32 q| ≤ 2 ^ 31 := by
  have key : ∀ r : ℚ, 0 ≤ r → r ≤ 2 ^ 31 → roundF32 r ≤ 2 ^ 31 := by
    intro r h0 h1
    have := roundF32_le_nat (2 ^ 31) 31 h0 (by exact_mod_cast h1)
      (by rw [pow2z_eq_zpow]; push_cast; norm_num) (by norm_num)
      (by decide)
    exact_mod_cast this
  rcases le_or_lt 0 q with hq | hq
  · rw [abs_of_nonneg hq] at h
    rw [abs_of_nonneg (roundF32_nonneg hq)]
    exact key q hq h
  · rw [abs_of_neg hq] at h
    have hneg : roundF32 q = -roundF32 (-q) := by
      rw [← roundF32_neg, neg_neg]
    rw [hneg, abs_neg, abs_of_nonneg (roundF32_nonneg (by linarith))]
    exact key (-q) (by linarith) h

theorem roundF32_pow2 {a : ℤ} (ha : -149 ≤ a) : roundF32 (pow2z a) = pow2z a := by
  apply roundF32_eq_self
  have hexp : f32exp (pow2z a) = a := f32exp_pow2 ha
  have hu : f32ulpExp (pow2z a) ≤ a := by
    rw [f32ulpExp, hexp]
    rcases max_cases a (-126) with ⟨h1, _⟩ | ⟨h1, _⟩ <;> omega
  have hu149 : -149 ≤ f32ulpExp (pow2z a) := by
    rw [f32ulpExp, hexp]
    rcases max_cases a (-126) with ⟨h1, _⟩ | ⟨h1, _⟩ <;> omega
  set u := f32ulpExp (pow2z a) with hu_def
  refine ⟨2 ^ (a - u).toNat, ?_⟩
  rw [pow2z_eq_zpow, pow2z_eq_zpow]
  push_cast
  rw [← zpow_natCast (2 : ℚ) (a - u).toNat,
    Int.toNat_of_nonneg (by omega), ← zpow_add₀ (by norm_num : (2 : ℚ) ≠ 0)]
  ring_nf

theorem roundF32_one : roundF32 1 = 1 := by
  have := roundF32_pow2 (a := 0) (by norm_num)
  rwa [pow2z_zero] at this

theorem pow2z_neg32 : pow2z (-32) = 1 / 2 ^ 32 := by
  rw [pow2z_eq_zpow, zpow_neg]
  norm_num

/-- The scale constant of `sample_unit` is exactly `-2 ^ (-32)`: both the
conversion of `i32::MIN` and the division are exact. -/
theorem rangeUnit_eq : rangeUnit = -pow2z (-32) := by
  have h1 : (1 / 2 : ℚ) / i32MinF = -pow2z (-32) := by
    rw [i32MinF, pow2z_neg32]
    norm_num
  rw [rangeUnit, f32div, h1, roundF32_neg, roundF32_pow2 (by norm_num)]

theorem pow2z_31 : pow2z 31 = 2 ^ 31 := by
  rw [pow2z_eq_zpow]
  norm_num

/-- The value `i32::MIN` converts to `f32` exactly. -/
theorem intoMf32_i32Min : intoMf32 (-(2 ^ 31)) = -(2 ^ 31) := by
  unfold intoMf32
  rw [show (((-(2 ^ 31) : ℤ)) : ℚ) = -(2 ^ 31) by push_cast; ring]
  rw [roundF32_neg]
  rw [show ((2 : ℚ) ^ 31) = pow2z 31 from pow2z_31.symm,
    roundF32_pow2 (by norm_num)]

/-- Evaluation of one `sample_unit` lane at the input `i32::MIN`:
the result is exactly `1`, not strictly below `1`. -/
theorem sampleUnitLane_i32Min : sampleUnitLane (-(2 ^ 31)) = 1 := by
  unfold sampleUnitLane f32fma
  rw [intoMf32_i32Min, rangeUnit_eq, pow2z_neg32]
  rw [show (-(2 ^ 31 : ℚ)) * -(1 / 2 ^ 32) + 1 / 2 = 1 by norm_num]
  exact roundF32_one

theorem toInt32_bounds (u : ℕ) : -(2 ^ 31) ≤ toInt32 u ∧ toInt32 u < 2 ^ 31 := by
  have h := Nat.mod_lt u (show 0 < 2 ^ 32 by norm_num)
  unfold toInt32
  split_ifs with hlt <;> constructor <;> omega

theorem i32Lane_bounds (s : Mu64) (k : Fin 8) :
    -(2 ^ 31) ≤ i32Lane s k ∧ i32Lane s k ≤ 2 ^ 31 := by
  obtain ⟨h1, h2⟩ := toInt32_bounds (u32Lane s k)
  exact ⟨h1, le_of_lt h2⟩

/-- Every lane of `sample_unit` lies in the closed interval `[0, 1]`
whenever the input lane is a 32-bit signed value. -/
theorem sampleUnitLane_mem {v : ℤ} (h1 : -(2 ^ 31) ≤ v) (h2 : v ≤ 2 ^ 31) :
    0 ≤ sampleUnitLane v ∧ sampleUnitLane v ≤ 1 := by
  unfold sampleUnitLane f32fma
  have hvabs : |(v : ℚ)| ≤ 2 ^ 31 := by
    rw [abs_le]
    constructor <;> [exact_mod_cast h1; exact_mod_cast h2]
  have hvf : |intoMf32 v| ≤ 2 ^ 31 := abs_roundF32_le_two31 hvabs
  rw [rangeUnit_eq, pow2z_neg32]
  have hw : |intoMf32 v * (1 / 2 ^ 32)| ≤ 1 / 2 := by
    rw [abs_mul]
    have h232 : |(1 / 2 ^ 32 : ℚ)| = 1 / 2 ^ 32 := by
      rw [abs_of_pos]
      norm_num
    rw [h232]
    calc |intoMf32 v| * (1 / 2 ^ 32) ≤ (2 ^ 31) * (1 / 2 ^ 32) := by
          exact mul_le_mul_of_nonneg_right hvf (by norm_num)
      _ = 1 / 2 := by norm_num
  rw [abs_le] at hw
  have hin : 0 ≤ intoMf32 v * -(1 / 2 ^ 32) + 1 / 2 ∧
      intoMf32 v * -(1 / 2 ^ 32) + 1 / 2 ≤ 1 := by
    constructor <;> nlinarith [hw.1, hw.2]
  exact roundF32_mem_Icc_one hin.1 hin.2

/-- C3: refuted by evaluation.  The seed `(3221225472, 0, 0)` (a valid
`u32` triple, `x = 3 * 2^30`) produces an initial state whose lane 0 has
low 32-bit half `0x80000000`, i.e. the signed value `i32::MIN`; for that
lane the very first `sample_unit()` draw returns exactly `1`, which is not
strictly less than `1`.  (The conversion of `i32::MIN` to `f32` and the
fused multiply-add `(-2^31) * (0.5 / -2^31 as f32) + 0.5 = 1` are exact,
so this value is independent of rounding-mode details.) -/
theorem sampleUnit_returns_one_at_seed :
    i32Lane (withSeed 3221225472 0 0) 0 = -(2 ^ 31) ∧
    (sampleUnit (withSeed 3221225472 0 0)).1 0 = 1 ∧
    ¬(sampleUnit (withSeed 3221225472 0 0)).1 0 < 1 := by
  have hlane : i32Lane (withSeed 3221225472 0 0) 0 = -(2 ^ 31) := by decide
  have hval : (sampleUnit (withSeed 3221225472 0 0)).1 0 = 1 := by
    show sampleUnitLane (i32Lane (withSeed 3221225472 0 0) 0) = 1
    rw [hlane]
    exact sampleUnitLane_i32Min
  exact ⟨hlane, hval, by rw [hval]; exact lt_irrefl 1⟩

/-- C9: `sample_hemisphere_vector` draws `phi = sample_angle()` from the
current state and `r² = sample_unit()` from the advanced state (in that
order, advancing the generator exactly twice), returns
`(sin φ · √r², cos φ · √r², √(1 − r²))` per lane, and each lane's vector
has Euclidean norm exactly `1`, in particular within `[0.991, 1.009]`.
(In the model the external sine, cosine and square root are exact, per the
spec; `r² ∈ [0, 1]` is proved from the `sample_unit` rounding model.) -/
theorem sampleHemisphereVector_spec (s : Mu64) (k : Fin 8) :
    (sampleHemisphereVector s).2 = stepState (stepState s) ∧
    (sampleHemisphereVector s).1 k =
      (Real.sin ((sampleAngleLane (i32Lane s k) : ℚ) : ℝ) *
         Real.sqrt ((sampleUnitLane (i32Lane (stepState s) k) : ℚ) : ℝ),
       Real.cos ((sampleAngleLane (i32Lane s k) : ℚ) : ℝ) *
         Real.sqrt ((sampleUnitLane (i32Lane (stepState s) k) : ℚ) : ℝ),
       Real.sqrt (1 - ((sampleUnitLane (i32Lane (stepState s) k) : ℚ) : ℝ))) ∧
    vecNorm ((sampleHemisphereVector s).1 k) = 1 ∧
    (0.991 ≤ vecNorm ((sampleHemisphereVector s).1 k) ∧
      vecNorm ((sampleHemisphereVector s).1 k) ≤ 1.009) := by
  obtain ⟨hb1, hb2⟩ := i32Lane_bounds (stepState s) k
  have hr2q := sampleUnitLane_mem hb1 hb2
  set φ : ℝ := ((sampleAngleLane (i32Lane s k) : ℚ) : ℝ) with hphi
  set r2 : ℝ := ((sampleUnitLane (i32Lane (stepState s) k) : ℚ) : ℝ) with hr2
  have h0 : (0 : ℝ) ≤ r2 := by
    rw [hr2]
    exact_mod_cast hr2q.1
  have h1 : r2 ≤ 1 := by
    rw [hr2]
    exact_mod_cast hr2q.2
  have hcomp : (sampleHemisphereVector s).1 k =
      (Real.sin φ * Real.sqrt r2, Real.cos φ * Real.sqrt r2,
        Real.sqrt (1 - r2)) := rfl
  have hnorm : vecNorm ((sampleHemisphereVector s).1 k) = 1 := by
    rw [hcomp]
    unfold vecNorm
    rw [mul_pow, mul_pow, Real.sq_sqrt h0,
      Real.sq_sqrt (by linarith : (0 : ℝ) ≤ 1 - r2)]
    have hsum : Real.sin φ ^ 2 * r2 + Real.cos φ ^ 2 * r2 + (1 - r2) = 1 := by
      have hsc := Real.sin_sq_add_cos_sq φ
      nlinarith [hsc]
    rw [hsum, Real.sqrt_one]
  exact ⟨rfl, hcomp, hnorm, by rw [hnorm]; norm_num, by rw [hnorm]; norm_num⟩

/-- C1 counterexample: under the claim's stated convention (mask all-ones
for an occluded lane), the bitwise AND does NOT zero the occluded lane: at
`cos_alpha = 1` and `falloff = 1` the irradiance contribution of a lane
whose mask is all-ones is `1`, not `0`. -/
theorem getIrradiance_allOnes_mask_keeps_contribution :
    maskPattern true = 2 ^ 32 - 1 ∧
    getIrradianceLane 1 1 (maskPattern true) = 1 ∧ (1 : ℚ) ≠ 0 := by
  refine ⟨rfl, ?_, by norm_num⟩
  show f32mul 1 (mf32And 1 (maskPattern true)) = 1
  rw [show mf32And 1 (maskPattern true) = 1 by norm_num [mf32And, maskPattern]]
  unfold f32mul
  rw [mul_one]
  exact roundF32_one

/-- C1 amended: an occluded lane's mask is all-ZEROS and a clear lane's
mask is all-ONES; the bitwise AND with the mask then zeroes the occluded
lane's falloff (so its irradiance contribution is exactly zero, whatever
`cos_alpha` is) and leaves a clear lane's falloff bit pattern untouched
(`p &&& (2^32 - 1) = p` for every 32-bit pattern `p`, `p &&& 0 = 0`). -/
theorem getIrradiance_mask_spec (cosAlpha falloff : ℚ) (p : ℕ) :
    getIrradianceLane cosAlpha falloff (maskPattern false) = 0 ∧
    mf32And falloff (maskPattern true) = falloff ∧
    (p < 2 ^ 32 → p &&& maskPattern true = p ∧ p &&& maskPattern false = 0) := by
  refine ⟨?_, ?_, ?_⟩
  · show f32mul cosAlpha (mf32And falloff (maskPattern false)) = 0
    rw [show mf32And falloff (maskPattern false) = 0 by
      norm_num [mf32And, maskPattern]]
    unfold f32mul
    rw [mul_zero]
    exact roundF32_zero
  · norm_num [mf32And, maskPattern]
  · intro hp
    constructor
    · show p &&& (2 ^ 32 - 1) = p
      rw [Nat.and_pow_two_sub_one_eq_mod]
      exact Nat.mod_eq_of_lt hp
    · show p &&& 0 = 0
      exact Nat.and_zero p

/-- Witness for the amended C1 at the pattern `p = 5`. -/
theorem getIrradiance_mask_spec_witness :
    (5 < 2 ^ 32) ∧ (5 &&& maskPattern true = 5 ∧ 5 &&& maskPattern false = 0) :=
  ⟨by decide, (getIrradiance_mask_spec 1 1 5).2.2 (by decide)⟩

/-- Each colour channel byte is at most 255: the channel is clamped to
`[0, 1]`, scaled by 255 with one rounding (which stays in `[0, 255]`), and
converted to a nonnegative integer at most 255. -/
theorem channelByte_le (q : ℚ) : channelByte q ≤ 255 := by
  have hc0 : 0 ≤ clampOne q := le_min (by norm_num) (le_max_left 0 q)
  have hc1 : clampOne q ≤ 1 := min_le_left 1 (max 0 q)
  have hm0 : 0 ≤ clampOne q * 255 := by nlinarith
  have hm1 : clampOne q * 255 ≤ 255 := by nlinarith
  obtain ⟨hr0, hr1⟩ := roundF32_mem_Icc_255 hm0 hm1
  have hv0 : (0 : ℤ) ≤ intoMi32 (f32mul (clampOne q) 255) := by
    apply le_rneInt
    push_cast
    exact hr0
  have hv1 : intoMi32 (f32mul (clampOne q) 255) ≤ 255 := rneInt_le (by
    push_cast
    exact hr1)
  unfold channelByte u32pat
  have hmod : intoMi32 (f32mul (clampOne q) 255) % 2 ^ 32 =
      intoMi32 (f32mul (clampOne q) 255) :=
    Int.emod_eq_of_lt hv0 (by omega)
  omega

/-- Disjoint-bit OR is addition: `b ||| a <<< i = 2 ^ i * a + b` when
`b < 2 ^ i`. -/
theorem lor_shiftLeft_eq_add {b : ℕ} (i a : ℕ) (hb : b < 2 ^ i) :
    b ||| a <<< i = 2 ^ i * a + b := by
  rw [Nat.shiftLeft_eq, Nat.lor_comm, mul_comm a (2 ^ i)]
  exact (Nat.mul_add_lt_is_or hb a).symm

/-- C8: each channel of a shaded colour is clamped to `[0, 1]`, scaled by
255 and converted to an integer byte at most 255; the packed pixel is
exactly `R ||| G <<< 8 ||| B <<< 16 ||| 0xFF <<< 24`, and in particular
the alpha byte of every stored pixel is 255. -/
theorem packRGBA_bytes (r g b : ℚ) :
    channelByte r ≤ 255 ∧ channelByte g ≤ 255 ∧ channelByte b ≤ 255 ∧
    packRGBA r g b =
      ((channelByte r ||| channelByte g <<< 8) |||
        (channelByte b <<< 16 ||| 255 <<< 24)) ∧
    packRGBA r g b % 256 = channelByte r ∧
    packRGBA r g b / 2 ^ 8 % 256 = channelByte g ∧
    packRGBA r g b / 2 ^ 16 % 256 = channelByte b ∧
    packRGBA r g b / 2 ^ 24 % 256 = 255 := by
  have hr := channelByte_le r
  have hg := channelByte_le g
  have hb := channelByte_le b
  have hshg : channelByte g <<< 8 % 2 ^ 32 = channelByte g <<< 8 :=
    Nat.mod_eq_of_lt (by rw [Nat.shiftLeft_eq]; omega)
  have hshb : channelByte b <<< 16 % 2 ^ 32 = channelByte b <<< 16 :=
    Nat.mod_eq_of_lt (by rw [Nat.shiftLeft_eq]; omega)
  have hpack : packRGBA r g b =
      ((channelByte r ||| channelByte g <<< 8) |||
        (channelByte b <<< 16 ||| 255 <<< 24)) := by
    unfold packRGBA
    rw [hshg, hshb, show (255 <<< 24 : ℕ) = 4278190080 by decide]
  have e1 : channelByte r ||| channelByte g <<< 8 =
      2 ^ 8 * channelByte g + channelByte r :=
    lor_shiftLeft_eq_add 8 (channelByte g) (by omega)
  have e2 : (2 ^ 8 * channelByte g + channelByte r) ||| channelByte b <<< 16 =
      2 ^ 16 * channelByte b + (2 ^ 8 * channelByte g + channelByte r) :=
    lor_shiftLeft_eq_add 16 (channelByte b) (by omega)
  have e3 : (2 ^ 16 * channelByte b +
        (2 ^ 8 * channelByte g + channelByte r)) ||| 255 <<< 24 =
      2 ^ 24 * 255 + (2 ^ 16 * channelByte b +
        (2 ^ 8 * channelByte g + channelByte r)) :=
    lor_shiftLeft_eq_add 24 255 (by omega)
  have hsum : packRGBA r g b = 2 ^ 24 * 255 + (2 ^ 16 * channelByte b +
      (2 ^ 8 * channelByte g + channelByte r)) := by
    rw [hpack, ← Nat.lor_assoc, e1, e2, e3]
  refine ⟨hr, hg, hb, hpack, ?_, ?_, ?_, ?_⟩ <;> omega

/-- The block writer `render_block_16x4` leaves every storage word outside its eight write
indices unchanged. -/
theorem renderBlock_apply_not_mem (shade : Shade) (width : ℕ) (bm : Bitmap)
    (x y w : ℕ) (hw : w ∉ writeWords width x y) :
    renderBlock shade width bm x y w = bm w := by
  simp only [writeWords, List.mem_cons, List.not_mem_nil, or_false,
    not_or] at hw
  obtain ⟨h0, h1, h2, h3, h4, h5, h6, h7⟩ := hw
  have hidx : ∀ k : ℕ, y * width + k * width + x = (y + k) * width + x :=
    fun k => by ring
  unfold renderBlock
  dsimp only
  rw [Function.update_noteq (by rw [hidx 3]; exact h7),
    Function.update_noteq (by rw [hidx 3, Nat.add_zero]; exact h6),
    Function.update_noteq (by rw [hidx 2]; exact h5),
    Function.update_noteq (by rw [hidx 2, Nat.add_zero]; exact h4),
    Function.update_noteq (by rw [hidx 1]; exact h3),
    Function.update_noteq (by rw [hidx 1, Nat.add_zero]; exact h2),
    Function.update_noteq (by rw [hidx 0]; exact h1),
    Function.update_noteq (by rw [hidx 0, Nat.add_zero]; exact h0)]

/-- Division uniqueness: a word index in a row-major grid determines its
row and column. -/
theorem row_col_unique {Q r1 c1 r2 c2 : ℕ} (h : r1 * Q + c1 = r2 * Q + c2)
    (h1 : c1 < Q) (h2 : c2 < Q) : r1 = r2 ∧ c1 = c2 := by
  have hQ : 0 < Q := by omega
  have hcomm : c1 + r1 * Q = c2 + r2 * Q := by
    rw [Nat.add_comm c1, Nat.add_comm c2]
    exact h
  have e1 : (c1 + r1 * Q) / Q = r1 := by
    rw [Nat.add_mul_div_right _ _ hQ, Nat.div_eq_of_lt h1, Nat.zero_add]
  have e2 : (c2 + r2 * Q) / Q = r2 := by
    rw [Nat.add_mul_div_right _ _ hQ, Nat.div_eq_of_lt h2, Nat.zero_add]
  have hr : r1 = r2 := by rw [← e1, ← e2, hcomm]
  refine ⟨hr, ?_⟩
  subst hr
  exact Nat.add_left_cancel h

/-- Characterisation of the write indices of a block whose coordinates
satisfy the alignment constraints. -/
theorem mem_writeWords_iff {ww ax y w : ℕ} :
    w ∈ writeWords (16 * ww) (16 * ax) y ↔
      ∃ k < 4, ∃ c < 2, w = 2 * ((y + k) * ww + ax) + c := by
  have hdiv : ∀ k : ℕ, ((y + k) * (16 * ww) + 16 * ax) / 8 =
      2 * ((y + k) * ww + ax) := by
    intro k
    rw [show (y + k) * (16 * ww) + 16 * ax = 8 * (2 * ((y + k) * ww + ax))
      by ring]
    exact Nat.mul_div_cancel_left _ (by norm_num)
  simp only [writeWords, List.mem_cons, List.not_mem_nil, or_false, hdiv]
  constructor
  · rintro (rfl | rfl | rfl | rfl | rfl | rfl | rfl | rfl)
    · exact ⟨0, by norm_num, 0, by norm_num, by ring⟩
    · exact ⟨0, by norm_num, 1, by norm_num, by ring⟩
    · exact ⟨1, by norm_num, 0, by norm_num, by ring⟩
    · exact ⟨1, by norm_num, 1, by norm_num, by ring⟩
    · exact ⟨2, by norm_num, 0, by norm_num, by ring⟩
    · exact ⟨2, by norm_num, 1, by norm_num, by ring⟩
    · exact ⟨3, by norm_num, 0, by norm_num, by ring⟩
    · exact ⟨3, by norm_num, 1, by norm_num, by ring⟩
  · rintro ⟨k, hk, c, hc, rfl⟩
    interval_cases k <;> interval_cases c
    · exact Or.inl (by ring)
    · exact Or.inr (Or.inl (by ring))
    · exact Or.inr (Or.inr (Or.inl (by ring)))
    · exact Or.inr (Or.inr (Or.inr (Or.inl (by ring))))
    · exact Or.inr (Or.inr (Or.inr (Or.inr (Or.inl (by ring)))))
    · exact Or.inr (Or.inr (Or.inr (Or.inr (Or.inr (Or.inl (by ring))))))
    · exact Or.inr (Or.inr (Or.inr (Or.inr (Or.inr (Or.inr (Or.inl
        (by ring)))))))
    · exact Or.inr (Or.inr (Or.inr (Or.inr (Or.inr (Or.inr (Or.inr
        (by ring)))))))

/-- C10: `render_block_16x4(bitmap, x, y)` writes only the eight storage
words at `((y + k) * width + x) / 8` and the following word for
`k ∈ {0,1,2,3}`, leaving every other word unchanged; consequently two
in-bounds blocks with distinct bottom-left coordinates (x a multiple of
16, y a multiple of 4) write disjoint sets of storage words. -/
theorem renderBlock_frame_and_disjoint :
    (∀ (shade : Shade) (width : ℕ) (bm : Bitmap) (x y w : ℕ),
      w ∉ writeWords width x y → renderBlock shade width bm x y w = bm w) ∧
    (∀ width x1 y1 x2 y2 : ℕ, 16 ∣ width → 16 ∣ x1 → 4 ∣ y1 → 16 ∣ x2 →
      4 ∣ y2 → x1 + 16 ≤ width → x2 + 16 ≤ width → (x1, y1) ≠ (x2, y2) →
      ∀ w, w ∈ writeWords width x1 y1 → w ∉ writeWords width x2 y2) := by
  constructor
  · exact renderBlock_apply_not_mem
  · intro width x1 y1 x2 y2 hw16 hx1 hy1 hx2 hy2 hin1 hin2 hne w hm1 hm2
    obtain ⟨ww, rfl⟩ := hw16
    obtain ⟨a1, rfl⟩ := hx1
    obtain ⟨b1, rfl⟩ := hy1
    obtain ⟨a2, rfl⟩ := hx2
    obtain ⟨b2, rfl⟩ := hy2
    rw [mem_writeWords_iff] at hm1 hm2
    obtain ⟨k1, hk1, c1, hc1, rfl⟩ := hm1
    obtain ⟨k2, hk2, c2, hc2, heq⟩ := hm2
    have ha1 : a1 < ww := by omega
    have ha2 : a2 < ww := by omega
    have hPc : (4 * b1 + k1) * ww + a1 = (4 * b2 + k2) * ww + a2 ∧
        c1 = c2 := by
      have h1 : (4 * b1 + k1) * ww = (b1 * 4 + k1) * ww := by ring_nf
      set P1 := (4 * b1 + k1) * ww + a1 with hP1
      set P2 := (4 * b2 + k2) * ww + a2 with hP2
      omega
    obtain ⟨hrow, hcol⟩ := row_col_unique hPc.1 ha1 ha2
    apply hne
    simp only [Prod.mk.injEq]
    omega

/-- The storage word `render_block_16x4` leaves at write index `(k, c)` is
the corresponding un-shuffled line word. -/
theorem renderBlock_apply_writeWord (shade : Shade) (ww : ℕ) (bm : Bitmap)
    (ax y : ℕ) (hww : 1 ≤ ww) (k c : ℕ) (hk : k < 4) (hc : c < 2) :
    renderBlock shade (16 * ww) bm (16 * ax) y
        (2 * (y * ww + k * ww + ax) + c) =
      blockWord shade (16 * ax) y k c := by
  have hidx : ∀ k2 : ℕ, (y * (16 * ww) + k2 * (16 * ww) + 16 * ax) / 8 =
      2 * (y * ww + k2 * ww + ax) := by
    intro k2
    rw [show y * (16 * ww) + k2 * (16 * ww) + 16 * ax =
      8 * (2 * (y * ww + k2 * ww + ax)) by ring]
    exact Nat.mul_div_cancel_left _ (by norm_num)
  unfold renderBlock
  dsimp only
  rw [hidx 0, hidx 1, hidx 2, hidx 3]
  generalize y * ww = yw
  interval_cases k <;> interval_cases c
  · rw [Function.update_noteq (by omega), Function.update_noteq (by omega),
      Function.update_noteq (by omega), Function.update_noteq (by omega),
      Function.update_noteq (by omega), Function.update_noteq (by omega),
      Function.update_noteq (by omega), Function.update_same]
    rfl
  · rw [Function.update_noteq (by omega), Function.update_noteq (by omega),
      Function.update_noteq (by omega), Function.update_noteq (by omega),
      Function.update_noteq (by omega), Function.update_noteq (by omega),
      Function.update_same]
    rfl
  · rw [Function.update_noteq (by omega), Function.update_noteq (by omega),
      Function.update_noteq (by omega), Function.update_noteq (by omega),
      Function.update_noteq (by omega), Function.update_same]
    rfl
  · rw [Function.update_noteq (by omega), Function.update_noteq (by omega),
      Function.update_noteq (by omega), Function.update_noteq (by omega),
      Function.update_same]
    rfl
  · rw [Function.update_noteq (by omega), Function.update_noteq (by omega),
      Function.update_noteq (by omega), Function.update_same]
    rfl
  · rw [Function.update_noteq (by omega), Function.update_noteq (by omega),
      Function.update_same]
    rfl
  · rw [Function.update_noteq (by omega), Function.update_same]
    rfl
  · rw [Function.update_same]
    rfl

/-- Lane bookkeeping of the un-shuffle: lane `dx % 8` of the word written
at row offset `dy`, word offset `dx / 8` is the colour of batch
`batchOf dx dy`, lane `laneOf dx dy`. -/
theorem blockWord_lane (shade : Shade) (x y : ℕ) (dx dy : ℕ) (hdx : dx < 16)
    (hdy : dy < 4) (h8 : dx % 8 < 8) :
    blockWord shade x y dy (dx / 8) ⟨dx % 8, h8⟩ =
      shade x y (batchOf dx dy) (laneOf dx dy) := by
  interval_cases dx <;> interval_cases dy <;> rfl

/-- C2: for every in-bounds block (x a multiple of 16, y a multiple of 4),
after `render_block_16x4` writes the block, the byte at offset
`4 * ((y + dy) * width + (x + dx)) + b` of the flat byte array equals byte
`b` of the packed colour the block computed for pixel `(x + dx, y + dy)` —
the un-shuffle permutation into raster order is bit-exact. -/
theorem renderBlock_intoBitmap_roundtrip (shade : Shade) (width : ℕ)
    (bm : Bitmap) (x y : ℕ) (hw : 16 ∣ width) (hx : 16 ∣ x) (hy : 4 ∣ y)
    (hin : x + 16 ≤ width) :
    ∀ dx dy b : ℕ, dx < 16 → dy < 4 → b < 4 →
      intoBitmap (renderBlock shade width bm x y)
          (4 * ((y + dy) * width + (x + dx)) + b) =
        shade x y (batchOf dx dy) (laneOf dx dy) / 2 ^ (8 * b) % 256 := by
  obtain ⟨ww, rfl⟩ := hw
  obtain ⟨ax, rfl⟩ := hx
  intro dx dy b hdx hdy hb
  have hww : 1 ≤ ww := by omega
  set T := 2 * (y * ww + dy * ww + ax) + dx / 8 with hT
  have hA : (y + dy) * (16 * ww) + (16 * ax + dx) = 8 * T + dx % 8 := by
    rw [hT]
    conv_lhs => rw [show dx = 8 * (dx / 8) + dx % 8 from
      (Nat.div_add_mod dx 8).symm]
    ring
  have hj : 4 * ((y + dy) * (16 * ww) + (16 * ax + dx)) + b =
      32 * T + (4 * (dx % 8) + b) := by
    rw [hA]
    ring
  rw [hj]
  unfold intoBitmap
  have hm8 : dx % 8 < 8 := Nat.mod_lt _ (by norm_num)
  have hdiv32 : (32 * T + (4 * (dx % 8) + b)) / 32 = T := by omega
  have hmod32 : (32 * T + (4 * (dx % 8) + b)) % 32 / 4 = dx % 8 := by omega
  have hmod4 : (32 * T + (4 * (dx % 8) + b)) % 4 = b := by omega
  simp only [hdiv32, hmod32, hmod4]
  simp only [hT]
  rw [renderBlock_apply_writeWord shade ww bm ax y hww dy (dx / 8) hdy
    (by omega)]
  rw [blockWord_lane shade (16 * ax) y dx dy hdx hdy hm8]

/-- Witness for C2 at the origin block of a 16-pixel-wide buffer. -/
theorem renderBlock_intoBitmap_roundtrip_witness :
    ((16 ∣ 16) ∧ (16 ∣ (0 : ℕ)) ∧ (4 ∣ (0 : ℕ)) ∧ 0 + 16 ≤ 16 ∧
      (0 : ℕ) < 16 ∧ (0 : ℕ) < 4 ∧ (0 : ℕ) < 4) ∧
    intoBitmap (renderBlock (fun _ _ _ _ => 7) 16 (fun _ _ => 0) 0 0)
        (4 * ((0 + 0) * 16 + (0 + 0)) + 0) =
      (fun _ _ _ _ => 7 : Shade) 0 0 (batchOf 0 0) (laneOf 0 0) /
        2 ^ (8 * 0) % 256 :=
  ⟨⟨by decide, by decide, by decide, by decide, by decide, by decide,
    by decide⟩,
   renderBlock_intoBitmap_roundtrip (fun _ _ _ _ => 7) 16 (fun _ _ => 0) 0 0
     (by decide) (by decide) (by decide) (by decide) 0 0 0 (by decide)
     (by decide) (by decide)⟩

/-- Witness for C10: two adjacent blocks in a 32-pixel-wide buffer. -/
theorem renderBlock_frame_and_disjoint_witness :
    ((16 ∣ 32) ∧ (16 ∣ 0) ∧ (4 ∣ 0) ∧ (16 ∣ 16) ∧ (0 + 16 ≤ 32) ∧
      (16 + 16 ≤ 32) ∧ ((0, 0) : ℕ × ℕ) ≠ (16, 0) ∧ 0 ∈ writeWords 32 0 0) ∧
      0 ∉ writeWords 32 16 0 :=
  ⟨⟨by decide, by decide, by decide, by decide, by decide, by decide,
    by decide, by decide⟩,
   renderBlock_frame_and_disjoint.2 32 0 0 16 0 (by decide) (by decide)
     (by decide) (by decide) (by decide) (by decide) (by decide) (by decide)
     0 (by decide)⟩

/-- Witness for C6 on a 16-pixel-wide patch. -/
theorem renderPatch_tiles_witness :
    (16 ∣ 16) ∧ (renderPatch (fun _ _ _ _ => 0) 16 (fun _ _ => 0) 16 0 0).1 =
      (patchBlocks 16 0 0).foldl
        (fun b p => renderBlock (fun _ _ _ _ => 0) 16 b p.1 p.2)
        (fun _ _ => 0) :=
  ⟨by decide,
   (renderPatch_tiles (fun _ _ _ _ => 0) 16 (fun _ _ => 0) 16 0 0).2.2.1
     (by decide)⟩

end Convector
